import Mathlib

/-!
# CAN text-frame relay: codec, server cache, forwarder and client sampling loop

A shallow embedding of `sdl2-dataClient.cpp` and `sdl2-dataServer.cpp`.

* A `std::string` is a `List Char`; a character that the code does not single
  out (anything but `#`, hex digits, white space, signs and `x`/`X`) behaves as
  an arbitrary "other" character, which also covers an embedded NUL at which
  `strtoul` stops.
* `uint32_t`, `uint8_t` and `int` values are `Nat`/`Int` with explicit wrap-around
  where the source converts between widths.
* The in/out parameter `can_frame& frame` of `parseCANFrameString` is passed
  explicitly: the function returns its `bool` together with the frame as the
  caller finds it afterwards.
* The globals of the server (`steeringFrame`, `propulsionFrame`, `hasSteering`,
  `hasPropulsion`) form `ServerState`; every block run under `frameMutex` is
  one atomic step on it.
-/

namespace CANRelay

/-! ## Characters -/

/-- The function `isspace` in the "C" locale: space, `\t`, `\n`, `\v`, `\f`, `\r`. -/
def isspace (c : Char) : Bool :=
  c.toNat = 32 || (9 ≤ c.toNat && c.toNat ≤ 13)

/-- Value of a character as a base-16 digit, as `strtoul` reads it
(both letter cases are accepted). -/
def hexVal (c : Char) : Option Nat :=
  if 48 ≤ c.toNat ∧ c.toNat ≤ 57 then some (c.toNat - 48)
  else if 65 ≤ c.toNat ∧ c.toNat ≤ 70 then some (c.toNat - 55)
  else if 97 ≤ c.toNat ∧ c.toNat ≤ 102 then some (c.toNat - 87)
  else none

/-- The function `isxdigit`: the character is one of `0-9`, `A-F`, `a-f`. -/
def isxdigit (c : Char) : Bool := (hexVal c).isSome

/-- The digit characters `0-9`, `A-F` only (what `std::uppercase` prints). -/
def isUpperHex (c : Char) : Bool :=
  (48 ≤ c.toNat && c.toNat ≤ 57) || (65 ≤ c.toNat && c.toNat ≤ 70)

/-! ## Stream output: `std::hex`, `std::uppercase`, `std::setw`, `std::setfill` -/

/-- The character printed for one base-16 digit under `std::uppercase`. -/
def hexDigitUpper (d : Nat) : Char :=
  Char.ofNat (if d < 10 then 48 + d else 55 + d)

/-- Digits of `n` in base 16, most significant first; `fuel` bounds the number
of digits produced. -/
def toHexUpperFuel : Nat → Nat → List Char
  | 0, _ => []
  | fuel + 1, n =>
    (if n < 16 then [] else toHexUpperFuel fuel (n / 16)) ++ [hexDigitUpper (n % 16)]

/-- Output of `os << std::hex << std::uppercase << n` for an unsigned `n` and field width 0. -/
def toHexUpper (n : Nat) : List Char := toHexUpperFuel (n + 1) n

/-- Output of `os << std::hex << std::uppercase << std::setw(w) << std::setfill('0') << n`:
the digits of `n`, filled on the left with `'0'` up to width `w`, never cut. -/
def putHex (w n : Nat) : List Char := List.leftpad w '0' (toHexUpper n)

/-! ## Client: `createCANFrameString` -/

/-- The function `createCANFrameString(can_id, data, dlc)` of `sdl2-dataClient.cpp`.
`can_id` is a `uint32_t`, `data` points to `uint8_t`s and `dlc` is an `int`;
the loop body runs for `i = 0 .. dlc - 1` and reads `data[i]`. -/
def createCANFrameString (can_id : Nat) (data : List Nat) (dlc : Int) : List Char :=
  putHex 3 can_id ++ ['#'] ++
    (List.range dlc.toNat).flatMap (fun i => putHex 2 (data.getD i 0))

/-! ## `std::stoul(str, nullptr, 16)` -/

/-- The two exceptions `std::stoul` throws. -/
inductive StoulError where
  | invalid_argument
  | out_of_range
deriving DecidableEq, Repr

/-- The constant `ULONG_MAX` of the server's platform: the server is a Windows program
(`<windows.h>`, `HANDLE`, `CreateFileA`), where `unsigned long` has 32 bits. -/
def ULONG_MAX : Nat := 2 ^ 32 - 1

/-- Accumulate base-16 digits onto `acc`, left to right. -/
def hexAcc (acc : Nat) (s : List Char) : Nat :=
  s.foldl (fun a c => a * 16 + (hexVal c).getD 0) acc

/-- Optional sign of the subject sequence: returns whether it was `-`, and the rest. -/
def skipSign (s : List Char) : Bool × List Char :=
  match s with
  | [] => (false, [])
  | c :: r => if c = '-' then (true, r) else if c = '+' then (false, r) else (false, c :: r)

/-- Optional `0x`/`0X` of base 16: consumed only when a hex digit follows, so that
the subject sequence stays the longest prefix of the expected form
(C standard, 7.22.1.4). -/
def skipHexPrefix (s : List Char) : List Char :=
  match s with
  | c0 :: c1 :: c2 :: r =>
    if c0 = '0' ∧ (c1 = 'x' ∨ c1 = 'X') ∧ isxdigit c2 = true then c2 :: r else s
  | _ => s

/-- The call `std::stoul(str, nullptr, 16)`: skip white space, an optional sign and an
optional `0x`, read the longest run of hex digits and ignore what follows.
No digit: `invalid_argument`; magnitude above `ULONG_MAX`: `out_of_range`;
a leading `-` negates the value in `unsigned long`. -/
def stoul (str : List Char) : Except StoulError Nat :=
  let body := skipHexPrefix (skipSign (str.dropWhile isspace)).2
  let digits := body.takeWhile isxdigit
  if digits = [] then Except.error StoulError.invalid_argument
  else if hexAcc 0 digits > ULONG_MAX then Except.error StoulError.out_of_range
  else if (skipSign (str.dropWhile isspace)).1 then
    Except.ok ((ULONG_MAX + 1 - hexAcc 0 digits) % (ULONG_MAX + 1))
  else Except.ok (hexAcc 0 digits)

/-! ## Server: `can_frame`, `sendFrameOverSerial`, `parseCANFrameString` -/

/-- The type `struct can_frame { uint32_t can_id; uint8_t can_dlc; uint8_t data[8]; }`. -/
structure can_frame where
  can_id : Nat
  can_dlc : Nat
  data : List Nat
deriving DecidableEq, Repr

/-- The text `sendFrameOverSerial(frame)` builds in `oss` and writes to the serial
handle: the identifier in uppercase hex without any field width, `#`, two
digits per byte for `i < can_dlc`, and a newline. -/
def sendFrameOverSerial (frame : can_frame) : List Char :=
  toHexUpper frame.can_id ++ ['#'] ++
    (List.range frame.can_dlc).flatMap (fun i => putHex 2 (frame.data.getD i 0)) ++ ['\n']

/-- The call `msg.find(ch)`: index of the first occurrence, `none` for `npos`. -/
def find (msg : List Char) (ch : Char) : Option Nat :=
  match msg with
  | [] => none
  | c :: r => if c = ch then some 0 else (find r ch).map (· + 1)

/-- The call `s.substr(pos, len)`: throws `std::out_of_range` (here `none`) when
`pos > s.size()`. -/
def substr (s : List Char) (pos len : Nat) : Option (List Char) :=
  if pos > s.length then none else some ((s.drop pos).take len)

/-- The cast `(int)n` for a `size_t` `n`: wraps to 32-bit two's complement. -/
def toInt32 (n : Nat) : Int :=
  if n % 2 ^ 32 < 2 ^ 31 then (n % 2 ^ 32 : Nat) else (n % 2 ^ 32 : Nat) - 2 ^ 32

/-- The cast `static_cast<uint8_t>(x)` for an `int` `x`. -/
def toUInt8 (x : Int) : Nat := (x % 256).toNat

/-- The `for` loop of `parseCANFrameString`: `k` iterations are left, the
counter is `i`. An exception of `substr` or `stoul` ends the function through
`catch (...)` with `false`, leaving in `frame` what was stored so far.
Storing to `frame.data[i]` with `i ≥ 8` is outside the array; the list is left
as it is in that case. -/
def parseLoop (stoulF : List Char → Except StoulError Nat) (data : List Char) :
    Nat → Nat → can_frame → Bool × can_frame
  | 0, _, frame => (true, frame)
  | k + 1, i, frame =>
    match substr data (i * 2) 2 with
    | none => (false, frame)
    | some t =>
      match stoulF t with
      | Except.error _ => (false, frame)
      | Except.ok v =>
        parseLoop stoulF data k (i + 1) { frame with data := frame.data.set i (v % 256) }

/-- The function `parseCANFrameString(msg, frame)` with the string-to-number conversion
`stoulF` standing for `std::stoul(·, nullptr, 16)`. -/
def parseCANFrameStringWith (stoulF : List Char → Except StoulError Nat)
    (msg : List Char) (frame : can_frame) : Bool × can_frame :=
  match find msg '#' with
  | none => (false, frame)
  | some sep =>
    match stoulF (msg.take sep) with
    | Except.error _ => (false, frame)
    | Except.ok id =>
      let dlc := toUInt8 (min (Int.tdiv (toInt32 (msg.drop (sep + 1)).length) 2) 8)
      parseLoop stoulF (msg.drop (sep + 1)) dlc 0
        { frame with can_id := id % 2 ^ 32, can_dlc := dlc }

/-- The function `parseCANFrameString(msg, frame)` of `sdl2-dataServer.cpp`. -/
def parseCANFrameString (msg : List Char) (frame : can_frame) : Bool × can_frame :=
  parseCANFrameStringWith stoul msg frame

/-! ## Server: cache, handler and periodic sender -/

/-- The server's globals guarded by `frameMutex`. -/
structure ServerState where
  steeringFrame : can_frame
  propulsionFrame : can_frame
  hasSteering : Bool
  hasPropulsion : Bool
deriving DecidableEq, Repr

/-- The initial values of the globals. -/
def initialState : ServerState :=
  { steeringFrame := { can_id := 0x4B7, can_dlc := 8, data := List.replicate 8 0 }
    propulsionFrame := { can_id := 0x4B3, can_dlc := 8, data := List.replicate 8 0 }
    hasSteering := false
    hasPropulsion := false }

/-- The block of `handleRequest` run under `frameMutex` once a frame was parsed. -/
def cacheUpdate (st : ServerState) (frame : can_frame) : ServerState :=
  if frame.can_id = 0x4B7 then
    { st with steeringFrame := frame, hasSteering := true }
  else if frame.can_id = 0x4B3 then
    { st with propulsionFrame := frame, hasPropulsion := true }
  else st

/-- One pass of the body of the read loop for a received `message`, after the
`n <= 0` test. `frame` is the content of the uninitialised local `can_frame frame`. -/
def handleMessage (st : ServerState) (frame : can_frame) (message : List Char) :
    ServerState :=
  if message = [] ∨ message = ['p', 'i', 'n', 'g'] then st
  else
    match parseCANFrameString message frame with
    | (true, parsed) => cacheUpdate st parsed
    | (false, _) => st

/-- What one call of `ws.receiveFrame` gave: the return value `n`, the first
`n` bytes of the buffer as `message`, and the content of the local `frame`. -/
structure Received where
  n : Int
  message : List Char
  frame : can_frame

/-- The `while (true)` read loop of `WebSocketRequestHandler::handleRequest` over
the successive results of `receiveFrame`, from the cache state `st` on; the list
ends where `receiveFrame` throws or nothing more arrives. -/
def handleRequest (st : ServerState) : List Received → ServerState
  | [] => st
  | r :: rest =>
    if r.n ≤ 0 then st
    else handleRequest (handleMessage st r.frame r.message) rest

/-- The frames one tick of `periodicSender` passes to `sendFrameOverSerial`, in order. -/
def periodicSenderReads (st : ServerState) : List can_frame :=
  (if st.hasSteering then [st.steeringFrame] else []) ++
    (if st.hasPropulsion then [st.propulsionFrame] else [])

/-- The lines one tick of `periodicSender` writes to the serial handle. -/
def periodicSenderTick (st : ServerState) : List (List Char) :=
  (periodicSenderReads st).map sendFrameOverSerial

/-! ## Client: the sampling loop of `main` -/

/-- The locals `prevSteering` and `prevPower1` of the client's `main`. A finite
`double` is represented by its exact value, so that `!=` on the samples is
inequality of the values; the samples come from `mapRangeSteering` and
`mapRangePower` of integer axis readings and are never NaN. -/
structure ClientState where
  prevSteering : ℚ
  prevPower1 : ℚ
deriving DecidableEq

/-- The state before the first pass: `prevSteering = -999, prevPower1 = -999`. -/
def initialClientState : ClientState := { prevSteering := -999, prevPower1 := -999 }

/-- One pass of the `while (running.load())` loop of the client, from the
`if (joystick)` on. `joystick` is `none` when no device is open, else the pair
`(steering, power1)` just sampled. `powerByte` and `steeringByte` stand for the
floating-point conversions `static_cast<uint8_t>(power1)` and
`static_cast<uint8_t>((steering + 50) * 255.0 / 100.0)`. The result is the new
state and the messages handed to `ws->sendFrame`, in order. -/
def samplingTick (powerByte steeringByte : ℚ → Nat) (st : ClientState)
    (joystick : Option (ℚ × ℚ)) : ClientState × List (List Char) :=
  match joystick with
  | none => (st, [])
  | some (steering, power1) =>
    if steering ≠ st.prevSteering ∨ power1 ≠ st.prevPower1 then
      let propulsionData := ((List.replicate 8 0).set 0 0x01).set 1 (powerByte power1 % 256)
      let propulsionMsg := createCANFrameString 0x4B3 propulsionData 8
      let steeringData := (List.replicate 8 0).set 0 (steeringByte steering % 256)
      let steeringMsg := createCANFrameString 0x4B7 steeringData 8
      ({ prevSteering := steering, prevPower1 := power1 }, [propulsionMsg, steeringMsg])
    else (st, [])

/-! ## Notions used to state the properties -/

/-- The sixteen uppercase hexadecimal digit characters, in order of value. -/
def upperDigits : List Char :=
  ['0', '1', '2', '3', '4', '5', '6', '7', '8', '9', 'A', 'B', 'C', 'D', 'E', 'F']

/-- The two-digit, zero-padded, uppercase hexadecimal text of a byte, read off
the digit table: the digit of `b / 16`, then the digit of `b % 16`. -/
def byteHex2 (b : Nat) : List Char :=
  [upperDigits.getD (b / 16) '0', upperDigits.getD (b % 16) '0']

/-- The hexadecimal value of a text, for a text that is a hexadecimal numeral:
one or more hex digits and nothing else. -/
def hexValue (s : List Char) : Option Nat :=
  if s ≠ [] ∧ s.all isxdigit = true then some (hexAcc 0 s) else none

/-- The text offers `stoul` nothing to convert: after leading white space and
one optional sign it is at its end, or goes on with a character that is not a
hex digit. -/
def noHexDigitAhead (s : List Char) : Bool :=
  match (skipSign (s.dropWhile isspace)).2 with
  | [] => true
  | c :: _ => !isxdigit c

/-- The frame of the most recent cache update for identifier `id` in a sequence
of updates, `none` when there was none. -/
def lastPut (id : Nat) (puts : List can_frame) : Option can_frame :=
  (puts.filter (fun f => f.can_id = id)).getLast?

/-- The server state reached from the initial one by handling a sequence of
received messages (from any connections, in the order their handling takes
`frameMutex`), each given with the content of the handler's local `frame`. -/
def serverAfter (events : List (can_frame × List Char)) : ServerState :=
  events.foldl (fun st e => handleMessage st e.1 e.2) initialState

/-! ## Facts about characters and hexadecimal text -/

theorem hexVal_hexDigitUpper (d : Nat) (h : d < 16) : hexVal (hexDigitUpper d) = some d := by
  interval_cases d <;> rfl

theorem isUpperHex_hexDigitUpper (d : Nat) (h : d < 16) :
    isUpperHex (hexDigitUpper d) = true := by
  interval_cases d <;> rfl

theorem hexDigitUpper_eq_zero_iff (d : Nat) (h : d < 16) :
    hexDigitUpper d = '0' ↔ d = 0 := by
  interval_cases d <;> decide

theorem isxdigit_of_isUpperHex (c : Char) (h : isUpperHex c = true) : isxdigit c = true := by
  simp only [isUpperHex, Bool.or_eq_true, Bool.and_eq_true, decide_eq_true_eq] at h
  simp only [isxdigit, hexVal]
  rcases h with h | h
  · simp [h]
  · have : ¬ (48 ≤ c.toNat ∧ c.toNat ≤ 57) := by omega
    simp [this, h]

theorem isspace_of_isxdigit (c : Char) (h : isxdigit c = true) : isspace c = false := by
  simp only [isxdigit, hexVal] at h
  simp only [isspace, Bool.or_eq_false_iff, Bool.and_eq_false_iff, decide_eq_false_iff_not]
  split at h
  · omega
  · split at h
    · omega
    · split at h
      · omega
      · simp at h

theorem ne_special_of_isxdigit (c : Char) (h : isxdigit c = true) :
    c ≠ '#' ∧ c ≠ '-' ∧ c ≠ '+' ∧ c ≠ 'x' ∧ c ≠ 'X' := by
  refine ⟨?_, ?_, ?_, ?_, ?_⟩ <;> (intro hc; subst hc; revert h; decide)

theorem hexAcc_append (a : Nat) (xs ys : List Char) :
    hexAcc a (xs ++ ys) = hexAcc (hexAcc a xs) ys := by
  simp [hexAcc, List.foldl_append]

theorem hexAcc_replicate_zero (k : Nat) (s : List Char) :
    hexAcc 0 (List.replicate k '0' ++ s) = hexAcc 0 s := by
  induction k with
  | zero => simp
  | succ k ih =>
    rw [List.replicate_succ, List.cons_append]
    have h0 : hexAcc 0 ('0' :: (List.replicate k '0' ++ s)) =
        hexAcc 0 (List.replicate k '0' ++ s) := by
      simp only [hexAcc, List.foldl_cons]
      rfl
    rw [h0, ih]

theorem toHexUpperFuel_upper (fuel n : Nat) :
    ∀ c ∈ toHexUpperFuel fuel n, isUpperHex c = true := by
  induction fuel generalizing n with
  | zero => simp [toHexUpperFuel]
  | succ fuel ih =>
    intro c hc
    simp only [toHexUpperFuel, List.mem_append, List.mem_singleton] at hc
    rcases hc with hc | hc
    · split at hc
      · simp at hc
      · exact ih _ c hc
    · subst hc
      exact isUpperHex_hexDigitUpper _ (Nat.mod_lt _ (by decide))

theorem toHexUpperFuel_ne_nil (fuel n : Nat) : toHexUpperFuel (fuel + 1) n ≠ [] := by
  simp [toHexUpperFuel]

theorem hexAcc_toHexUpperFuel (fuel n : Nat) (h : n < fuel) :
    hexAcc 0 (toHexUpperFuel fuel n) = n := by
  induction fuel generalizing n with
  | zero => omega
  | succ fuel ih =>
    simp only [toHexUpperFuel]
    rw [hexAcc_append]
    have hd : hexVal (hexDigitUpper (n % 16)) = some (n % 16) :=
      hexVal_hexDigitUpper _ (Nat.mod_lt _ (by decide))
    by_cases hn : n < 16
    · simp only [hn, if_true]
      simp only [hexAcc, List.foldl_cons, List.foldl_nil, hd, Option.getD_some]
      omega
    · simp only [hn, if_false]
      rw [ih (n / 16) (by omega)]
      simp only [hexAcc, List.foldl_cons, List.foldl_nil, hd, Option.getD_some]
      omega

theorem toHexUpperFuel_head (fuel n : Nat) (h : n < fuel) (hn : n ≠ 0) :
    (toHexUpperFuel fuel n).head? ≠ some '0' := by
  induction fuel generalizing n with
  | zero => omega
  | succ fuel ih =>
    simp only [toHexUpperFuel]
    by_cases h16 : n < 16
    · simp only [h16, if_true, List.nil_append, List.head?_cons, ne_eq, Option.some.injEq]
      rw [hexDigitUpper_eq_zero_iff _ (Nat.mod_lt _ (by decide))]
      omega
    · simp only [h16, if_false]
      have hne : toHexUpperFuel fuel (n / 16) ≠ [] := by
        cases fuel with
        | zero => omega
        | succ f => exact toHexUpperFuel_ne_nil f _
      rw [List.head?_append_of_ne_nil _ hne]
      exact ih (n / 16) (by omega) (by omega)

theorem toHexUpper_ne_nil (n : Nat) : toHexUpper n ≠ [] := toHexUpperFuel_ne_nil n n

theorem toHexUpper_upper (n : Nat) : ∀ c ∈ toHexUpper n, isUpperHex c = true :=
  toHexUpperFuel_upper (n + 1) n

theorem hexAcc_toHexUpper (n : Nat) : hexAcc 0 (toHexUpper n) = n :=
  hexAcc_toHexUpperFuel (n + 1) n (Nat.lt_succ_self n)

theorem putHex_upper (w n : Nat) : ∀ c ∈ putHex w n, isUpperHex c = true := by
  intro c hc
  simp only [putHex, List.leftpad, List.mem_append, List.mem_replicate] at hc
  rcases hc with ⟨_, hc⟩ | hc
  · subst hc; rfl
  · exact toHexUpper_upper n c hc

theorem putHex_ne_nil (w n : Nat) : putHex w n ≠ [] := by
  simp [putHex, List.leftpad, toHexUpper_ne_nil]

theorem hexAcc_putHex (w n : Nat) : hexAcc 0 (putHex w n) = n := by
  simp only [putHex, List.leftpad]
  rw [hexAcc_replicate_zero, hexAcc_toHexUpper]

/-- A byte prints as exactly two digits under `setw(2)`. -/
theorem putHex_two_byte (b : Nat) (hb : b < 256) :
    putHex 2 b = [hexDigitUpper (b / 16), hexDigitUpper (b % 16)] := by
  by_cases h16 : b < 16
  · have h1 : toHexUpper b = [hexDigitUpper (b % 16)] := by
      simp [toHexUpper, toHexUpperFuel, h16]
    have h2 : b / 16 = 0 := by omega
    rw [putHex, h1, h2]
    rfl
  · obtain ⟨k, rfl⟩ : ∃ k, b = k + 1 := ⟨b - 1, by omega⟩
    have hq : (k + 1) / 16 < 16 := by omega
    have hm : (k + 1) / 16 % 16 = (k + 1) / 16 := Nat.mod_eq_of_lt hq
    have h1 : toHexUpper (k + 1) =
        [hexDigitUpper ((k + 1) / 16), hexDigitUpper ((k + 1) % 16)] := by
      simp [toHexUpper, toHexUpperFuel, h16, hq, hm]
    rw [putHex, h1]
    rfl

/-! ## Facts about `stoul` -/

theorem skipSign_of_isxdigit (c : Char) (r : List Char) (h : isxdigit c = true) :
    skipSign (c :: r) = (false, c :: r) := by
  obtain ⟨-, h1, h2, -, -⟩ := ne_special_of_isxdigit c h
  simp [skipSign, h1, h2]

theorem skipHexPrefix_of_second (c0 c1 : Char) (r : List Char) (h : isxdigit c1 = true) :
    skipHexPrefix (c0 :: c1 :: r) = c0 :: c1 :: r := by
  obtain ⟨-, -, -, h1, h2⟩ := ne_special_of_isxdigit c1 h
  cases r with
  | nil => rfl
  | cons c2 r => simp [skipHexPrefix, h1, h2]

theorem skipHexPrefix_of_xdigits (s : List Char) (hall : ∀ c ∈ s, isxdigit c = true) :
    skipHexPrefix s = s := by
  match s, hall with
  | [], _ => rfl
  | [_], _ => rfl
  | c0 :: c1 :: r, hall => exact skipHexPrefix_of_second c0 c1 r (hall c1 (by simp))

/-- On a nonempty string of hex digits `stoul` reads the whole string. -/
theorem stoul_of_xdigits (s : List Char) (hne : s ≠ [])
    (hall : ∀ c ∈ s, isxdigit c = true) :
    stoul s = if hexAcc 0 s > ULONG_MAX then Except.error StoulError.out_of_range
      else Except.ok (hexAcc 0 s) := by
  obtain ⟨c, r, rfl⟩ : ∃ c r, s = c :: r := List.exists_cons_of_ne_nil hne
  have hc : isxdigit c = true := hall c (by simp)
  have hsp : isspace c = false := isspace_of_isxdigit c hc
  have h1 : (c :: r).dropWhile isspace = c :: r := by simp [List.dropWhile, hsp]
  have h2 : (c :: r).takeWhile isxdigit = c :: r :=
    List.takeWhile_eq_self_iff.mpr hall
  simp only [stoul, h1, skipSign_of_isxdigit c r hc, skipHexPrefix_of_xdigits _ hall, h2]
  simp

/-- Nothing to convert: after white space and one optional sign the text does
not begin with a hex digit. -/
theorem stoul_invalid (s : List Char)
    (h : ∀ c r, (skipSign (s.dropWhile isspace)).2 = c :: r → isxdigit c = false) :
    stoul s = Except.error StoulError.invalid_argument := by
  have hd : (skipHexPrefix (skipSign (s.dropWhile isspace)).2).takeWhile isxdigit = [] := by
    generalize (skipSign (s.dropWhile isspace)).2 = t at h
    match t, h with
    | [], _ => rfl
    | c :: r, h =>
      have hc : isxdigit c = false := h c r rfl
      have hc0 : c ≠ '0' := by
        intro h0; subst h0; revert hc; decide
      have : skipHexPrefix (c :: r) = c :: r := by
        match r with
        | [] => rfl
        | [_] => rfl
        | c1 :: c2 :: r => simp [skipHexPrefix, hc0]
      rw [this]
      simp [List.takeWhile, hc]
  simp only [stoul, hd]
  simp

/-! ## Facts about `find` and the shape of `parseCANFrameString` -/

theorem find_none_of_not_mem (msg : List Char) (ch : Char) (h : ch ∉ msg) :
    find msg ch = none := by
  induction msg with
  | nil => rfl
  | cons c r ih =>
    simp only [List.mem_cons, not_or] at h
    have hc : c ≠ ch := fun e => h.1 e.symm
    simp [find, hc, ih h.2]

theorem find_first (pre post : List Char) (ch : Char) (h : ch ∉ pre) :
    find (pre ++ ch :: post) ch = some pre.length := by
  induction pre with
  | nil => simp [find]
  | cons c r ih =>
    simp only [List.mem_cons, not_or] at h
    have hc : c ≠ ch := fun e => h.1 e.symm
    simp [find, hc, ih h.2]

theorem toInt32_of_lt (n : Nat) (h : n < 2 ^ 31) : toInt32 n = (n : Int) := by
  have h1 : n % 2 ^ 32 = n := Nat.mod_eq_of_lt (by omega)
  simp only [toInt32, h1]
  rw [if_pos h]

/-- The data length code stored for a payload shorter than `2 ^ 31` characters. -/
theorem dlc_of_length (n : Nat) (h : n < 2 ^ 31) :
    toUInt8 (min (Int.tdiv (toInt32 n) 2) 8) = min (n / 2) 8 := by
  rw [toInt32_of_lt n h, Int.tdiv_eq_ediv (by omega) (by omega)]
  simp only [toUInt8]
  omega

theorem parse_split (stoulF : List Char → Except StoulError Nat)
    (pre post : List Char) (frame : can_frame) (h : '#' ∉ pre) :
    parseCANFrameStringWith stoulF (pre ++ '#' :: post) frame =
      match stoulF pre with
      | Except.error _ => (false, frame)
      | Except.ok id =>
        parseLoop stoulF post (toUInt8 (min (Int.tdiv (toInt32 post.length) 2) 8)) 0
          { frame with can_id := id % 2 ^ 32,
                       can_dlc := toUInt8 (min (Int.tdiv (toInt32 post.length) 2) 8) } := by
  simp only [parseCANFrameStringWith, find_first pre post '#' h]
  simp

theorem dlc_of_two_pow_31 : toUInt8 (min (Int.tdiv (toInt32 (2 ^ 31)) 2) 8) = 0 := by
  decide

/-- A payload of exactly `2 ^ 31` characters: the `(int)` cast of its length is
negative, the stored length code is 0 and the loop does not run. -/
theorem parse_payload_two_pow_31 (pre post : List Char) (frame : can_frame) (id : Nat)
    (hsep : '#' ∉ pre) (hlen : post.length = 2 ^ 31) (hid : stoul pre = Except.ok id) :
    parseCANFrameString (pre ++ '#' :: post) frame =
      (true, { frame with can_id := id % 2 ^ 32, can_dlc := 0 }) := by
  simp only [parseCANFrameString]
  rw [parse_split stoul pre post frame hsep, hid, hlen]
  simp only [dlc_of_two_pow_31]
  rfl

/-! ## Facts about the byte loop -/

theorem substr_eq_some (s : List Char) (pos len : Nat) (t : List Char)
    (h : substr s pos len = some t) : t = (s.drop pos).take len := by
  simp only [substr] at h
  split at h
  · simp at h
  · exact (Option.some.inj h).symm

theorem substr_of_le (s : List Char) (pos len : Nat) (h : pos ≤ s.length) :
    substr s pos len = some ((s.drop pos).take len) := by
  simp only [substr]
  rw [if_neg (by omega)]

/-- A pair that `stoulF` rejects makes the loop end with `false`. -/
theorem parseLoop_false (stoulF : List Char → Except StoulError Nat) (data : List Char)
    (j : Nat) (e : StoulError) (hj : stoulF ((data.drop (j * 2)).take 2) = Except.error e) :
    ∀ (k i : Nat) (frame : can_frame), i ≤ j → j < i + k →
      (parseLoop stoulF data k i frame).1 = false := by
  intro k
  induction k with
  | zero => intro i frame h1 h2; omega
  | succ k ih =>
    intro i frame h1 h2
    simp only [parseLoop]
    cases hs : substr data (i * 2) 2 with
    | none => rfl
    | some t =>
      have ht := substr_eq_some _ _ _ _ hs
      dsimp only
      cases hv : stoulF t with
      | error e2 => rfl
      | ok v =>
        dsimp only
        by_cases hij : i = j
        · subst hij
          rw [ht, hj] at hv
          cases hv
        · exact ih (i + 1) _ (by omega) (by omega)

/-- When every pair is accepted the loop ends with `true`. -/
theorem parseLoop_true (stoulF : List Char → Except StoulError Nat) (data : List Char) :
    ∀ (k i : Nat) (frame : can_frame),
      (∀ j, i ≤ j → j < i + k → j * 2 ≤ data.length ∧
        ∃ v, stoulF ((data.drop (j * 2)).take 2) = Except.ok v) →
      (parseLoop stoulF data k i frame).1 = true := by
  intro k
  induction k with
  | zero => intro i frame _; rfl
  | succ k ih =>
    intro i frame h
    obtain ⟨hle, v, hv⟩ := h i (Nat.le_refl i) (by omega)
    simp only [parseLoop, substr_of_le _ _ _ hle, hv]
    exact ih (i + 1) _ (fun j h1 h2 => h j (by omega) (by omega))

/-- What the loop leaves in the frame when it ends with `true`. -/
theorem parseLoop_result (stoulF : List Char → Except StoulError Nat) (data : List Char) :
    ∀ (k i : Nat) (frame : can_frame),
      (parseLoop stoulF data k i frame).1 = true →
      (parseLoop stoulF data k i frame).2.can_id = frame.can_id ∧
      (parseLoop stoulF data k i frame).2.can_dlc = frame.can_dlc ∧
      (parseLoop stoulF data k i frame).2.data.length = frame.data.length ∧
      (∀ j, j < i → (parseLoop stoulF data k i frame).2.data[j]? = frame.data[j]?) ∧
      (∀ j, i ≤ j → j < i + k →
        ∃ v, stoulF ((data.drop (j * 2)).take 2) = Except.ok v ∧
          (j < frame.data.length →
            (parseLoop stoulF data k i frame).2.data[j]? = some (v % 256))) := by
  intro k
  induction k with
  | zero =>
    intro i frame _
    refine ⟨rfl, rfl, rfl, fun _ _ => rfl, fun j h1 h2 => ?_⟩
    omega
  | succ k ih =>
    intro i frame h
    simp only [parseLoop] at h ⊢
    cases hs : substr data (i * 2) 2 with
    | none => simp [hs] at h
    | some t =>
      have ht := substr_eq_some _ _ _ _ hs
      simp only [hs] at h ⊢
      cases hv : stoulF t with
      | error e => simp [hv] at h
      | ok v =>
        simp only [hv] at h ⊢
        obtain ⟨h1, h2, h3, h4, h5⟩ := ih (i + 1) _ h
        refine ⟨h1, h2, ?_, ?_, ?_⟩
        · rw [h3]; simp
        · intro j hj
          rw [h4 j (by omega)]
          simp only []
          rw [List.getElem?_set_ne (by omega)]
        · intro j hj1 hj2
          by_cases hij : j = i
          · subst hij
            refine ⟨v, by rw [← ht]; exact hv, fun hlen => ?_⟩
            rw [h4 j (by omega)]
            simp [List.getElem?_set_self, hlen]
          · obtain ⟨w, hw1, hw2⟩ := h5 j (by omega) (by omega)
            refine ⟨w, hw1, fun hlen => hw2 ?_⟩
            simpa using hlen

/-! ## Facts about the text `createCANFrameString` produces -/

theorem range_flatMap_getD (f : Nat → List Char) (l : List Nat) (d : Nat) :
    (List.range l.length).flatMap (fun i => f (l.getD i d)) = l.flatMap f := by
  induction l using List.reverseRecOn with
  | nil => rfl
  | append_singleton l a ih =>
    rw [List.length_append, List.length_singleton, List.range_succ, List.flatMap_append,
      List.flatMap_append]
    have h1 : (List.range l.length).flatMap (fun i => f ((l ++ [a]).getD i d)) =
        (List.range l.length).flatMap (fun i => f (l.getD i d)) := by
      apply List.flatMap_congr
      intro i hi
      have hi2 : i < l.length := List.mem_range.mp hi
      simp [List.getD_eq_getElem?_getD, List.getElem?_append_left hi2]
    rw [h1, ih]
    simp [List.getD_eq_getElem?_getD]

theorem flatMap_length_two (f : Nat → List Char) (l : List Nat)
    (hf : ∀ b ∈ l, (f b).length = 2) : (l.flatMap f).length = 2 * l.length := by
  induction l with
  | nil => rfl
  | cons b r ih =>
    have h1 := hf b (by simp)
    have h2 := ih (fun c hc => hf c (by simp [hc]))
    simp only [List.flatMap_cons, List.length_append, List.length_cons, h1, h2]
    omega

theorem flatMap_pair (f : Nat → List Char) (l : List Nat)
    (hf : ∀ b ∈ l, (f b).length = 2) (j : Nat) (b : Nat) (hj : l[j]? = some b) :
    ((l.flatMap f).drop (j * 2)).take 2 = f b := by
  induction l generalizing j with
  | nil => simp at hj
  | cons a r ih =>
    have h1 := hf a (by simp)
    cases j with
    | zero =>
      simp only [List.getElem?_cons_zero, Option.some.injEq] at hj
      subst hj
      simp only [Nat.zero_mul, List.drop_zero, List.flatMap_cons]
      rw [List.take_append_of_le_length (by omega), List.take_of_length_le (by omega)]
    | succ j =>
      simp only [List.getElem?_cons_succ] at hj
      have h3 : (j + 1) * 2 = (f a).length + j * 2 := by omega
      rw [List.flatMap_cons, h3, List.drop_append]
      exact ih (fun c hc => hf c (by simp [hc])) j hj

theorem putHex_two_length (b : Nat) (hb : b < 256) : (putHex 2 b).length = 2 := by
  rw [putHex_two_byte b hb]; rfl

theorem isxdigit_of_mem_putHex (w n : Nat) : ∀ c ∈ putHex w n, isxdigit c = true :=
  fun c hc => isxdigit_of_isUpperHex c (putHex_upper w n c hc)

/-- Reading back what `putHex` printed gives the number again. -/
theorem stoul_putHex (w n : Nat) (hn : n < 2 ^ 32) : stoul (putHex w n) = Except.ok n := by
  rw [stoul_of_xdigits _ (putHex_ne_nil w n) (isxdigit_of_mem_putHex w n), hexAcc_putHex]
  have : ¬ n > ULONG_MAX := by
    simp only [ULONG_MAX]; omega
  rw [if_neg this]

theorem hash_not_mem_putHex (w n : Nat) : '#' ∉ putHex w n := by
  intro h
  exact (ne_special_of_isxdigit _ (isxdigit_of_mem_putHex w n _ h)).1 rfl

/-- The text of `createCANFrameString` when `data` has exactly `dlc` entries. -/
theorem createCANFrameString_eq (can_id : Nat) (data : List Nat) (dlc : Nat)
    (hlen : data.length = dlc) :
    createCANFrameString can_id data dlc =
      putHex 3 can_id ++ '#' :: data.flatMap (putHex 2) := by
  subst hlen
  simp only [createCANFrameString, Int.toNat_ofNat, range_flatMap_getD]
  simp

/-- Decoding an encoded frame: outcome of the loop and the bytes it stored. -/
theorem parse_create (can_id : Nat) (data : List Nat) (frame : can_frame)
    (hid : can_id < 2 ^ 32) (hdlc : data.length ≤ 8)
    (hbytes : ∀ b ∈ data, b < 256) (hframe : frame.data.length = 8) :
    (parseCANFrameString (putHex 3 can_id ++ '#' :: data.flatMap (putHex 2)) frame).1 = true ∧
    (parseCANFrameString (putHex 3 can_id ++ '#' :: data.flatMap (putHex 2)) frame).2.can_id
      = can_id ∧
    (parseCANFrameString (putHex 3 can_id ++ '#' :: data.flatMap (putHex 2)) frame).2.can_dlc
      = data.length ∧
    ∀ j, j < data.length →
      (parseCANFrameString (putHex 3 can_id ++ '#' :: data.flatMap (putHex 2)) frame).2.data[j]?
        = data[j]? := by
  have hlen2 : (data.flatMap (putHex 2)).length = 2 * data.length :=
    flatMap_length_two _ _ (fun b hb => putHex_two_length b (hbytes b hb))
  have hdlc2 : toUInt8 (min (Int.tdiv (toInt32 (data.flatMap (putHex 2)).length) 2) 8)
      = data.length := by
    rw [dlc_of_length _ (by rw [hlen2]; omega), hlen2]
    omega
  have hpair : ∀ j, j < data.length → ∃ b, data[j]? = some b ∧ b < 256 ∧
      stoul (((data.flatMap (putHex 2)).drop (j * 2)).take 2) = Except.ok b := by
    intro j hj
    have hmem : data[j] ∈ data := List.getElem_mem hj
    have hb := hbytes _ hmem
    refine ⟨data[j], List.getElem?_eq_getElem hj, hb, ?_⟩
    rw [flatMap_pair (putHex 2) data (fun b hb => putHex_two_length b (hbytes b hb)) j data[j]
      (List.getElem?_eq_getElem hj)]
    exact stoul_putHex 2 _ (by omega)
  have hid2 : can_id % 2 ^ 32 = can_id := Nat.mod_eq_of_lt hid
  simp only [parseCANFrameString]
  rw [parse_split stoul _ _ frame (hash_not_mem_putHex 3 can_id), stoul_putHex 3 can_id hid]
  simp only [hdlc2, hid2]
  have htrue := parseLoop_true stoul (data.flatMap (putHex 2)) data.length 0
    { frame with can_id := can_id, can_dlc := data.length }
    (fun j _ h2 => by
      obtain ⟨b, -, -, hb⟩ := hpair j (by omega)
      exact ⟨by rw [hlen2]; omega, b, hb⟩)
  obtain ⟨h1, h2, -, -, h5⟩ := parseLoop_result stoul _ _ _ _ htrue
  refine ⟨htrue, h1, h2, fun j hj => ?_⟩
  obtain ⟨v, hv1, hv2⟩ := h5 j (Nat.zero_le j) (by omega)
  obtain ⟨b, hb1, hb2, hb3⟩ := hpair j hj
  rw [hb3] at hv1
  cases hv1
  rw [hv2 (by simp only [hframe]; omega), hb1, Nat.mod_eq_of_lt hb2]

/-- C1 (round trip): for every 32-bit identifier, every `dlc` in `0..8` and every
`dlc` bytes of data, `parseCANFrameString` applied to the text of
`createCANFrameString` returns `true` and leaves a frame with the same identifier,
`can_dlc = dlc` and the same first `dlc` data bytes. -/
theorem parse_createCANFrameString_roundtrip (can_id : Nat) (data : List Nat) (dlc : Nat)
    (frame : can_frame) (hid : can_id < 2 ^ 32) (hdlc : dlc ≤ 8)
    (hlen : data.length = dlc) (hbytes : ∀ b ∈ data, b < 256)
    (hframe : frame.data.length = 8) :
    (parseCANFrameString (createCANFrameString can_id data dlc) frame).1 = true ∧
    (parseCANFrameString (createCANFrameString can_id data dlc) frame).2.can_id = can_id ∧
    (parseCANFrameString (createCANFrameString can_id data dlc) frame).2.can_dlc = dlc ∧
    (parseCANFrameString (createCANFrameString can_id data dlc) frame).2.data.take dlc
      = data := by
  rw [createCANFrameString_eq can_id data dlc hlen]
  subst hlen
  obtain ⟨h1, h2, h3, h4⟩ := parse_create can_id data frame hid hdlc hbytes hframe
  refine ⟨h1, h2, h3, ?_⟩
  apply List.ext_getElem?
  intro j
  by_cases hj : j < data.length
  · rw [List.getElem?_take_of_lt hj]
    exact h4 j hj
  · rw [List.getElem?_eq_none (by simp; omega), List.getElem?_eq_none (by omega)]

/-- C1 at the propulsion frame `0x4B3`, `01 32 00 00 00 00 00 00`. -/
theorem parse_createCANFrameString_roundtrip_witness :
    (parseCANFrameString (createCANFrameString 0x4B3 [0x01, 0x32, 0, 0, 0, 0, 0, 0] (8 : Nat))
        { can_id := 0, can_dlc := 0, data := [9, 9, 9, 9, 9, 9, 9, 9] }).1 = true ∧
    (parseCANFrameString (createCANFrameString 0x4B3 [0x01, 0x32, 0, 0, 0, 0, 0, 0] (8 : Nat))
        { can_id := 0, can_dlc := 0, data := [9, 9, 9, 9, 9, 9, 9, 9] }).2.can_id = 0x4B3 ∧
    (parseCANFrameString (createCANFrameString 0x4B3 [0x01, 0x32, 0, 0, 0, 0, 0, 0] (8 : Nat))
        { can_id := 0, can_dlc := 0, data := [9, 9, 9, 9, 9, 9, 9, 9] }).2.can_dlc = 8 ∧
    (parseCANFrameString (createCANFrameString 0x4B3 [0x01, 0x32, 0, 0, 0, 0, 0, 0] (8 : Nat))
        { can_id := 0, can_dlc := 0, data := [9, 9, 9, 9, 9, 9, 9, 9] }).2.data.take 8
      = [0x01, 0x32, 0, 0, 0, 0, 0, 0] :=
  parse_createCANFrameString_roundtrip 0x4B3 [0x01, 0x32, 0, 0, 0, 0, 0, 0] 8
    { can_id := 0, can_dlc := 0, data := [9, 9, 9, 9, 9, 9, 9, 9] }
    (by decide) (by decide) (by decide) (by decide) (by decide)

theorem hexDigitUpper_mem (d : Nat) (h : d < 16) :
    hexDigitUpper d = upperDigits.getD d '0' ∧ hexDigitUpper d ∈ upperDigits := by
  interval_cases d <;> decide

theorem toHexUpperFuel_mem (fuel n : Nat) :
    ∀ c ∈ toHexUpperFuel fuel n, c ∈ upperDigits := by
  induction fuel generalizing n with
  | zero => simp [toHexUpperFuel]
  | succ fuel ih =>
    intro c hc
    simp only [toHexUpperFuel, List.mem_append, List.mem_singleton] at hc
    rcases hc with hc | hc
    · split at hc
      · simp at hc
      · exact ih _ c hc
    · subst hc
      exact (hexDigitUpper_mem _ (Nat.mod_lt _ (by decide))).2

theorem putHex_two_eq_byteHex2 (b : Nat) (hb : b < 256) : putHex 2 b = byteHex2 b := by
  rw [putHex_two_byte b hb, byteHex2,
    (hexDigitUpper_mem (b / 16) (by omega)).1,
    (hexDigitUpper_mem (b % 16) (Nat.mod_lt _ (by decide))).1]

/-- C2 (encode format): for every identifier, every `dlc` in `0..8` and every
`dlc` bytes of data, the text of `createCANFrameString` is the uppercase
hexadecimal numeral of the identifier (digits of the table, value the
identifier, no leading zero of its own) filled on the left with `'0'` to at
least three characters and never cut, then `#`, then exactly `2 * dlc`
characters: byte by byte, in order, the two-digit zero-padded uppercase
hexadecimal text of each byte. In particular the frame `0x4B3` with data
`01 32 00 00 00 00 00 00` gives `4B3#0132000000000000`. -/
theorem createCANFrameString_format (can_id : Nat) (data : List Nat) (dlc : Nat)
    (hdlc : dlc ≤ 8) (hlen : data.length = dlc) (hbytes : ∀ b ∈ data, b < 256) :
    (∃ digits : List Char,
      createCANFrameString can_id data dlc =
        List.replicate (3 - digits.length) '0' ++ digits ++ '#' :: data.flatMap byteHex2 ∧
      digits ≠ [] ∧ (∀ c ∈ digits, c ∈ upperDigits) ∧
      (digits = ['0'] ∨ digits.head? ≠ some '0') ∧
      hexAcc 0 digits = can_id) ∧
    (data.flatMap byteHex2).length = 2 * dlc ∧ 2 * dlc ≤ 16 ∧
    createCANFrameString 0x4B3 [0x01, 0x32, 0, 0, 0, 0, 0, 0] 8 =
      ['4', 'B', '3', '#', '0', '1', '3', '2', '0', '0', '0', '0', '0', '0', '0', '0',
        '0', '0', '0', '0'] := by
  have hflat : data.flatMap (putHex 2) = data.flatMap byteHex2 :=
    List.flatMap_congr (fun b hb => putHex_two_eq_byteHex2 b (hbytes b hb))
  refine ⟨⟨toHexUpper can_id, ?_, toHexUpper_ne_nil can_id,
    toHexUpperFuel_mem (can_id + 1) can_id, ?_, hexAcc_toHexUpper can_id⟩, ?_, by omega, by decide⟩
  · rw [createCANFrameString_eq can_id data dlc hlen, hflat]
    rfl
  · by_cases h0 : can_id = 0
    · left; subst h0; rfl
    · right
      exact toHexUpperFuel_head (can_id + 1) can_id (Nat.lt_succ_self _) h0
  · rw [flatMap_length_two byteHex2 data (fun _ _ => rfl), hlen]

/-- C2 at the frame `0x4B7` with the two bytes `FF 0A`. -/
theorem createCANFrameString_format_witness :
    (∃ digits : List Char,
      createCANFrameString 0x4B7 [0xFF, 0x0A] (2 : Nat) =
        List.replicate (3 - digits.length) '0' ++ digits ++
          '#' :: [0xFF, 0x0A].flatMap byteHex2 ∧
      digits ≠ [] ∧ (∀ c ∈ digits, c ∈ upperDigits) ∧
      (digits = ['0'] ∨ digits.head? ≠ some '0') ∧
      hexAcc 0 digits = 0x4B7) ∧
    ([0xFF, 0x0A].flatMap byteHex2).length = 2 * 2 ∧ 2 * 2 ≤ 16 ∧
    createCANFrameString 0x4B3 [0x01, 0x32, 0, 0, 0, 0, 0, 0] 8 =
      ['4', 'B', '3', '#', '0', '1', '3', '2', '0', '0', '0', '0', '0', '0', '0', '0',
        '0', '0', '0', '0'] :=
  createCANFrameString_format 0x4B7 [0xFF, 0x0A] 2 (by decide) (by decide) (by decide)

theorem stoul_lt (s : List Char) (v : Nat) (h : stoul s = Except.ok v) : v < 2 ^ 32 := by
  simp only [stoul, ULONG_MAX] at h
  split at h
  · cases h
  · split at h
    · cases h
    · split at h
      · cases h
        exact Nat.mod_lt _ (by norm_num)
      · cases h
        omega

theorem hexVal_getD_lt (c : Char) : (hexVal c).getD 0 < 16 := by
  simp only [hexVal]
  split
  · simp only [Option.getD_some]; omega
  · split
    · simp only [Option.getD_some]; omega
    · split
      · simp only [Option.getD_some]; omega
      · simp

theorem hexAcc_take_two_lt (s : List Char) : hexAcc 0 (s.take 2) < 256 := by
  match s with
  | [] => simp [hexAcc]
  | [a] =>
    have := hexVal_getD_lt a
    simp only [List.take, hexAcc, List.foldl_cons, List.foldl_nil]
    omega
  | a :: b :: r =>
    have ha := hexVal_getD_lt a
    have hb := hexVal_getD_lt b
    simp only [List.take, hexAcc, List.foldl_cons, List.foldl_nil]
    omega

/-- Where the text is a hexadecimal numeral and `stoul` returns, it returns the
numeral's value. -/
theorem stoul_eq_hexValue (s : List Char) (v w : Nat) (hs : stoul s = Except.ok v)
    (hw : hexValue s = some w) : v = w := by
  simp only [hexValue] at hw
  split at hw
  · rename_i hcond
    have hall : ∀ c ∈ s, isxdigit c = true := by
      simpa [List.all_eq_true] using hcond.2
    rw [stoul_of_xdigits s hcond.1 hall] at hs
    split at hs
    · cases hs
    · cases hs
      exact Option.some.inj hw
  · cases hw

/-- C3 (decode result), as the code has it: when `parseCANFrameString` returns
`true` on a text that has its first `#` after `pre` and a payload `post`
shorter than `2 ^ 31` characters, then `can_dlc = min (len post / 2) 8` (at most
8, an odd last character dropped, characters past the 16th not looked at),
`can_id` is what `stoul` reads from `pre` in base 16, which is the hexadecimal
value of `pre` whenever `pre` is a hexadecimal numeral, and for each
`i < can_dlc`, `data[i]` is the low byte of what `stoul` reads from
`post[2i..2i+2)`, which is the hexadecimal value of that pair whenever the pair
is a hexadecimal numeral. -/
theorem parseCANFrameString_result (pre post : List Char) (frame parsed : can_frame)
    (hsep : '#' ∉ pre) (hlen : post.length < 2 ^ 31) (hframe : frame.data.length = 8)
    (hok : parseCANFrameString (pre ++ '#' :: post) frame = (true, parsed)) :
    parsed.can_dlc = min (post.length / 2) 8 ∧
    stoul pre = Except.ok parsed.can_id ∧
    (∀ v, hexValue pre = some v → parsed.can_id = v) ∧
    (∀ i, i < parsed.can_dlc →
      ∃ v, stoul ((post.drop (i * 2)).take 2) = Except.ok v ∧
        parsed.data[i]? = some (v % 256)) ∧
    (∀ i, i < parsed.can_dlc → ∀ v, hexValue ((post.drop (i * 2)).take 2) = some v →
      parsed.data[i]? = some v) := by
  simp only [parseCANFrameString] at hok
  rw [parse_split stoul pre post frame hsep, dlc_of_length _ hlen] at hok
  cases hid : stoul pre with
  | error e => simp [hid] at hok
  | ok id =>
    simp only [hid] at hok
    have hidlt := stoul_lt pre id hid
    have hfst : (parseLoop stoul post (min (post.length / 2) 8) 0
        { frame with can_id := id % 2 ^ 32, can_dlc := min (post.length / 2) 8 }).1 = true := by
      rw [hok]
    obtain ⟨h1, h2, -, -, h5⟩ := parseLoop_result stoul post _ _ _ hfst
    rw [hok] at h1 h2 h5
    simp only [] at h1 h2 h5
    have hcid : parsed.can_id = id := by rw [h1]; exact Nat.mod_eq_of_lt hidlt
    have hbytes : ∀ i, i < parsed.can_dlc →
        ∃ v, stoul ((post.drop (i * 2)).take 2) = Except.ok v ∧
          parsed.data[i]? = some (v % 256) := by
      intro i hi
      rw [h2] at hi
      obtain ⟨v, hv1, hv2⟩ := h5 i (Nat.zero_le i) (by omega)
      exact ⟨v, hv1, hv2 (by rw [hframe]; omega)⟩
    refine ⟨h2, by rw [hcid], ?_, hbytes, ?_⟩
    · intro v hv
      rw [hcid]
      exact stoul_eq_hexValue pre id v hid hv
    · intro i hi v hv
      obtain ⟨w, hw1, hw2⟩ := hbytes i hi
      have hwv := stoul_eq_hexValue _ w v hw1 hv
      have hvlt : v < 256 := by
        have := hexAcc_take_two_lt (post.drop (i * 2))
        simp only [hexValue] at hv
        split at hv
        · cases hv; exact this
        · cases hv
      rw [hw2, hwv, Nat.mod_eq_of_lt hvlt]

/-- C3 at the text `4B7#FF00000000000000`: identifier `0x4B7`, length code 8, data
`FF 00 00 00 00 00 00 00`. -/
theorem parseCANFrameString_result_witness :
    ({ can_id := 0x4B7, can_dlc := 8, data := [0xFF, 0, 0, 0, 0, 0, 0, 0] } : can_frame).can_dlc
      = min (['F', 'F', '0', '0', '0', '0', '0', '0', '0', '0', '0', '0', '0', '0', '0', '0'].length
          / 2) 8 ∧
    stoul ['4', 'B', '7'] = Except.ok 0x4B7 ∧
    (∀ v, hexValue ['4', 'B', '7'] = some v → 0x4B7 = v) ∧
    (∀ i, i < 8 →
      ∃ v, stoul ((['F', 'F', '0', '0', '0', '0', '0', '0', '0', '0', '0', '0', '0', '0', '0',
          '0'].drop (i * 2)).take 2) = Except.ok v ∧
        [0xFF, 0, 0, 0, 0, 0, 0, 0][i]? = some (v % 256)) ∧
    (∀ i, i < 8 → ∀ v, hexValue ((['F', 'F', '0', '0', '0', '0', '0', '0', '0', '0', '0', '0',
        '0', '0', '0', '0'].drop (i * 2)).take 2) = some v →
      [0xFF, 0, 0, 0, 0, 0, 0, 0][i]? = some v) :=
  parseCANFrameString_result ['4', 'B', '7']
    ['F', 'F', '0', '0', '0', '0', '0', '0', '0', '0', '0', '0', '0', '0', '0', '0']
    { can_id := 0, can_dlc := 0, data := [9, 9, 9, 9, 9, 9, 9, 9] }
    { can_id := 0x4B7, can_dlc := 8, data := [0xFF, 0, 0, 0, 0, 0, 0, 0] }
    (by decide) (by decide) (by decide) (by decide)

/-- C3, the claim as written fails. On `7Z#1G` the function returns `true` with
`can_id = 7`, `can_dlc = 1` and `data[0] = 1`, although neither `7Z` nor `1G` is a
hexadecimal numeral, so neither has a hexadecimal value. And on `0#` followed by
`2 ^ 31` zeros the function returns `true` with `can_dlc = 0`, while
`min (len / 2) 8` is 8: the `(int)` cast of the length has wrapped. -/
theorem parseCANFrameString_result_counterexample :
    (parseCANFrameString ['7', 'Z', '#', '1', 'G']
        { can_id := 0, can_dlc := 0, data := [9, 9, 9, 9, 9, 9, 9, 9] } =
      (true, { can_id := 7, can_dlc := 1, data := [1, 9, 9, 9, 9, 9, 9, 9] }) ∧
     hexValue ['7', 'Z'] = none ∧ hexValue ['1', 'G'] = none) ∧
    (parseCANFrameString (['0'] ++ '#' :: List.replicate (2 ^ 31) '0')
        { can_id := 5, can_dlc := 5, data := [9, 9, 9, 9, 9, 9, 9, 9] } =
      (true, { can_id := 0, can_dlc := 0, data := [9, 9, 9, 9, 9, 9, 9, 9] }) ∧
     min ((List.replicate (2 ^ 31) '0').length / 2) 8 = 8) := by
  refine ⟨by decide, ?_, ?_⟩
  · exact parse_payload_two_pow_31 ['0'] _ _ 0 (by decide) (List.length_replicate _ _) rfl
  · rw [List.length_replicate]; decide

theorem stoul_of_noHexDigitAhead (s : List Char) (h : noHexDigitAhead s = true) :
    stoul s = Except.error StoulError.invalid_argument := by
  apply stoul_invalid
  intro c r hcr
  simp only [noHexDigitAhead, hcr] at h
  simpa using h

theorem handleMessage_of_parse_false (st : ServerState) (frame : can_frame)
    (message : List Char) (h : (parseCANFrameString message frame).1 = false) :
    handleMessage st frame message = st := by
  simp only [handleMessage]
  split
  · rfl
  · split
    · rename_i heq
      rw [heq] at h
      cases h
    · rfl

/-- C4 (invalid payload byte), as the code has it: for a text with its first
`#` after `pre` and a payload `post` shorter than `2 ^ 31` characters, with
`dlc = min (len post / 2) 8`, if some pair `post[2i..2i+2)` with `i < dlc` offers
nothing to convert (after leading white space and one optional sign it does not
go on with a hex digit), then `parseCANFrameString` returns `false` and handling
the message leaves the cache as it was. -/
theorem parseCANFrameString_rejects_pair (st : ServerState) (pre post : List Char)
    (frame : can_frame) (i : Nat) (hsep : '#' ∉ pre) (hlen : post.length < 2 ^ 31)
    (hi : i < min (post.length / 2) 8)
    (hbad : noHexDigitAhead ((post.drop (i * 2)).take 2) = true) :
    (parseCANFrameString (pre ++ '#' :: post) frame).1 = false ∧
    handleMessage st frame (pre ++ '#' :: post) = st := by
  have hfalse : (parseCANFrameString (pre ++ '#' :: post) frame).1 = false := by
    simp only [parseCANFrameString]
    rw [parse_split stoul pre post frame hsep, dlc_of_length _ hlen]
    cases hid : stoul pre with
    | error e => rfl
    | ok id =>
      exact parseLoop_false stoul post i _ (stoul_of_noHexDigitAhead _ hbad) _ 0 _
        (Nat.zero_le i) (by omega)
  exact ⟨hfalse, handleMessage_of_parse_false st frame _ hfalse⟩

/-- C4 at the text `4B3#GZ`. -/
theorem parseCANFrameString_rejects_pair_witness :
    (parseCANFrameString (['4', 'B', '3'] ++ '#' :: ['G', 'Z'])
      { can_id := 0, can_dlc := 0, data := [9, 9, 9, 9, 9, 9, 9, 9] }).1 = false ∧
    handleMessage initialState { can_id := 0, can_dlc := 0, data := [9, 9, 9, 9, 9, 9, 9, 9] }
      (['4', 'B', '3'] ++ '#' :: ['G', 'Z']) = initialState :=
  parseCANFrameString_rejects_pair initialState ['4', 'B', '3'] ['G', 'Z']
    { can_id := 0, can_dlc := 0, data := [9, 9, 9, 9, 9, 9, 9, 9] } 0
    (by decide) (by decide) (by decide) (by decide)

/-- C4, the claim as written fails. In `4B3#1G` the pair `1G` is not made of two
hexadecimal digits, yet `parseCANFrameString` returns `true` (with `data[0] = 1`)
and the handler stores the frame in the cache. And on `0#GZ` followed by
`2 ^ 31 - 2` zeros the pair `GZ` has index `0 < min (len / 2) 8`, yet the function
returns `true`: the `(int)` cast of the length has wrapped and no pair is read. -/
theorem parseCANFrameString_rejects_pair_counterexample :
    ((['1', 'G'].all isxdigit) = false ∧
     parseCANFrameString ['4', 'B', '3', '#', '1', 'G']
        { can_id := 0, can_dlc := 0, data := [9, 9, 9, 9, 9, 9, 9, 9] } =
      (true, { can_id := 0x4B3, can_dlc := 1, data := [1, 9, 9, 9, 9, 9, 9, 9] }) ∧
     handleMessage initialState { can_id := 0, can_dlc := 0, data := [9, 9, 9, 9, 9, 9, 9, 9] }
        ['4', 'B', '3', '#', '1', 'G'] =
      { initialState with
        propulsionFrame := { can_id := 0x4B3, can_dlc := 1, data := [1, 9, 9, 9, 9, 9, 9, 9] }
        hasPropulsion := true }) ∧
    (0 < min (('G' :: 'Z' :: List.replicate (2 ^ 31 - 2) '0').length / 2) 8 ∧
     ((('G' :: 'Z' :: List.replicate (2 ^ 31 - 2) '0').drop (0 * 2)).take 2).all isxdigit
        = false ∧
     parseCANFrameString (['0'] ++ '#' :: 'G' :: 'Z' :: List.replicate (2 ^ 31 - 2) '0')
        { can_id := 5, can_dlc := 5, data := [9, 9, 9, 9, 9, 9, 9, 9] } =
      (true, { can_id := 0, can_dlc := 0, data := [9, 9, 9, 9, 9, 9, 9, 9] })) := by
  have hlen : ('G' :: 'Z' :: List.replicate (2 ^ 31 - 2) '0').length = 2 ^ 31 := by
    rw [List.length_cons, List.length_cons, List.length_replicate]
    decide
  refine ⟨by decide, ?_, ?_, ?_⟩
  · rw [hlen]; decide
  · decide
  · exact parse_payload_two_pow_31 ['0'] _ _ 0 (by decide) hlen rfl

/-- C5 (invalid identifier), as the code has it: for a text with its first `#`
after `pre`, if `pre` offers nothing to convert (it is empty, or after leading
white space and one optional sign it is at its end or goes on with a character
that is not a hex digit), then `parseCANFrameString` returns `false` and leaves
the caller's frame untouched. -/
theorem parseCANFrameString_rejects_id (pre post : List Char) (frame : can_frame)
    (hsep : '#' ∉ pre) (hbad : noHexDigitAhead pre = true) :
    parseCANFrameString (pre ++ '#' :: post) frame = (false, frame) := by
  simp only [parseCANFrameString]
  rw [parse_split stoul pre post frame hsep, stoul_of_noHexDigitAhead pre hbad]

/-- C5 at the text `#01`, whose identifier part is empty. -/
theorem parseCANFrameString_rejects_id_witness :
    parseCANFrameString ([] ++ '#' :: ['0', '1'])
        { can_id := 0, can_dlc := 0, data := [9, 9, 9, 9, 9, 9, 9, 9] } =
      (false, { can_id := 0, can_dlc := 0, data := [9, 9, 9, 9, 9, 9, 9, 9] }) :=
  parseCANFrameString_rejects_id [] ['0', '1']
    { can_id := 0, can_dlc := 0, data := [9, 9, 9, 9, 9, 9, 9, 9] } (by decide) (by decide)

/-- C5, the claim as written fails: in `1G#` the text before `#` contains `G`,
which is not a hexadecimal digit, yet `parseCANFrameString` returns `true` with
`can_id = 1`. -/
theorem parseCANFrameString_rejects_id_counterexample :
    'G' ∈ ['1', 'G'] ∧ isxdigit 'G' = false ∧
    (parseCANFrameString ['1', 'G', '#']
        { can_id := 0, can_dlc := 0, data := [9, 9, 9, 9, 9, 9, 9, 9] }) =
      (true, { can_id := 1, can_dlc := 0, data := [9, 9, 9, 9, 9, 9, 9, 9] }) := by
  decide

/-- C6 (missing separator): on a text without `#` the function returns `false`
and the caller's frame is untouched, whatever the string-to-number conversion
would do: it is not consulted, neither for the identifier nor for a byte. The
result is a value, no exception leaves the function. -/
theorem parseCANFrameString_no_separator
    (stoulF : List Char → Except StoulError Nat) (msg : List Char) (frame : can_frame)
    (h : '#' ∉ msg) :
    parseCANFrameStringWith stoulF msg frame = (false, frame) ∧
    parseCANFrameString msg frame = (false, frame) := by
  have hany : ∀ g : List Char → Except StoulError Nat,
      parseCANFrameStringWith g msg frame = (false, frame) := by
    intro g
    simp only [parseCANFrameStringWith, find_none_of_not_mem msg '#' h]
  exact ⟨hany stoulF, hany stoul⟩

/-- C6 at the text `nohash`, with a conversion that would accept anything. -/
theorem parseCANFrameString_no_separator_witness :
    parseCANFrameStringWith (fun _ => Except.ok 0) ['n', 'o', 'h', 'a', 's', 'h']
        { can_id := 0, can_dlc := 0, data := [9, 9, 9, 9, 9, 9, 9, 9] } =
      (false, { can_id := 0, can_dlc := 0, data := [9, 9, 9, 9, 9, 9, 9, 9] }) ∧
    parseCANFrameString ['n', 'o', 'h', 'a', 's', 'h']
        { can_id := 0, can_dlc := 0, data := [9, 9, 9, 9, 9, 9, 9, 9] } =
      (false, { can_id := 0, can_dlc := 0, data := [9, 9, 9, 9, 9, 9, 9, 9] }) :=
  parseCANFrameString_no_separator (fun _ => Except.ok 0) ['n', 'o', 'h', 'a', 's', 'h']
    { can_id := 0, can_dlc := 0, data := [9, 9, 9, 9, 9, 9, 9, 9] } (by decide)

/-! ## The cache and the forwarder -/

theorem lastPut_concat (id : Nat) (puts : List can_frame) (f : can_frame) :
    lastPut id (puts ++ [f]) = if f.can_id = id then some f else lastPut id puts := by
  simp only [lastPut, List.filter_append]
  by_cases h : f.can_id = id
  · simp [h, List.filter_cons]
  · simp [h, List.filter_cons]

/-- The cache after a sequence of updates, field by field. -/
theorem cache_after_puts (puts : List can_frame) :
    (puts.foldl cacheUpdate initialState).hasSteering = (lastPut 0x4B7 puts).isSome ∧
    (∀ f, lastPut 0x4B7 puts = some f →
      (puts.foldl cacheUpdate initialState).steeringFrame = f) ∧
    (puts.foldl cacheUpdate initialState).hasPropulsion = (lastPut 0x4B3 puts).isSome ∧
    (∀ f, lastPut 0x4B3 puts = some f →
      (puts.foldl cacheUpdate initialState).propulsionFrame = f) := by
  induction puts using List.reverseRecOn with
  | nil => simp [lastPut, initialState]
  | append_singleton puts g ih =>
    obtain ⟨h1, h2, h3, h4⟩ := ih
    rw [List.foldl_append, List.foldl_cons, List.foldl_nil, lastPut_concat, lastPut_concat]
    by_cases hs : g.can_id = 0x4B7
    · have hp : ¬ g.can_id = 0x4B3 := by omega
      simp only [cacheUpdate, hs, hp, if_true, if_false]
      refine ⟨rfl, fun f hf => (Option.some.inj hf), h3, h4⟩
    · by_cases hp : g.can_id = 0x4B3
      · simp only [cacheUpdate, hs, hp, if_true, if_false]
        refine ⟨h1, h2, rfl, fun f hf => (Option.some.inj hf)⟩
      · simp only [cacheUpdate, hs, hp, if_false]
        exact ⟨h1, h2, h3, h4⟩

/-- C7 (the cache is a last-write map): after any sequence of cache updates from
the initial state, the frames a tick of the forwarder reads are, for `0x4B7` and
then for `0x4B3`, exactly the frame of the most recent update for that identifier
when there was one and nothing otherwise; the frame is stored whole. An update
never clears a present flag, and an update for another identifier leaves the
entry as it was, so the same frame is read on every tick until it is overwritten. -/
theorem cache_last_write (puts : List can_frame) :
    periodicSenderReads (puts.foldl cacheUpdate initialState) =
      (lastPut 0x4B7 puts).toList ++ (lastPut 0x4B3 puts).toList ∧
    (∀ (st : ServerState) (f : can_frame),
      (st.hasSteering = true → (cacheUpdate st f).hasSteering = true) ∧
      (st.hasPropulsion = true → (cacheUpdate st f).hasPropulsion = true)) ∧
    (∀ (st : ServerState) (f : can_frame), f.can_id ≠ 0x4B7 →
      (cacheUpdate st f).steeringFrame = st.steeringFrame ∧
      (cacheUpdate st f).hasSteering = st.hasSteering) ∧
    (∀ (st : ServerState) (f : can_frame), f.can_id ≠ 0x4B3 →
      (cacheUpdate st f).propulsionFrame = st.propulsionFrame ∧
      (cacheUpdate st f).hasPropulsion = st.hasPropulsion) := by
  refine ⟨?_, ?_, ?_, ?_⟩
  · obtain ⟨h1, h2, h3, h4⟩ := cache_after_puts puts
    simp only [periodicSenderReads, h1, h3]
    cases hs : lastPut 0x4B7 puts with
    | none =>
      cases hp : lastPut 0x4B3 puts with
      | none => simp
      | some p => simp [h4 p hp]
    | some s =>
      cases hp : lastPut 0x4B3 puts with
      | none => simp [h2 s hs]
      | some p => simp [h2 s hs, h4 p hp]
  · intro st f
    simp only [cacheUpdate]
    constructor
    · intro h
      split
      · rfl
      · split
        · exact h
        · exact h
    · intro h
      split
      · exact h
      · split
        · rfl
        · exact h
  · intro st f hf
    simp only [cacheUpdate, hf, if_false]
    split <;> exact ⟨rfl, rfl⟩
  · intro st f hf
    simp only [cacheUpdate, hf, if_false]
    split <;> exact ⟨rfl, rfl⟩

/-- C8 (ignored messages): for every cache state and every received message that
is `ping`, or on which `parseCANFrameString` returns `false`, or that is parsed to
an identifier other than `0x4B7` and `0x4B3`, handling the message leaves both
cached frames and both present flags as they were, and the read loop goes on with
the next message. A message is received when `receiveFrame` returned `n > 0`;
with `n <= 0` the loop ends, the cache being unchanged as well. -/
theorem ignored_message_keeps_cache (st : ServerState) (r : Received)
    (rest : List Received)
    (hign : r.message = ['p', 'i', 'n', 'g'] ∨
      (parseCANFrameString r.message r.frame).1 = false ∨
      ((parseCANFrameString r.message r.frame).1 = true ∧
        (parseCANFrameString r.message r.frame).2.can_id ≠ 0x4B7 ∧
        (parseCANFrameString r.message r.frame).2.can_id ≠ 0x4B3)) :
    handleMessage st r.frame r.message = st ∧
    (0 < r.n → handleRequest st (r :: rest) = handleRequest st rest) ∧
    (r.n ≤ 0 → handleRequest st (r :: rest) = st) := by
  have hkeep : handleMessage st r.frame r.message = st := by
    rcases hign with h | h | ⟨-, h7, h3⟩
    · simp [handleMessage, h]
    · exact handleMessage_of_parse_false st r.frame r.message h
    · simp only [handleMessage]
      split
      · rfl
      · split
        · rename_i parsed heq
          rw [heq] at h7 h3
          simp only [cacheUpdate]
          rw [if_neg h7, if_neg h3]
        · rfl
  refine ⟨hkeep, fun hn => ?_, fun hn => ?_⟩
  · simp only [handleRequest]
    rw [if_neg (by omega), hkeep]
  · simp only [handleRequest]
    rw [if_pos hn]

/-- C8 at the message `123#01` (an identifier the cache does not hold) followed by
a steering message. -/
theorem ignored_message_keeps_cache_witness :
    handleMessage initialState { can_id := 0, can_dlc := 0, data := [9, 9, 9, 9, 9, 9, 9, 9] }
        ['1', '2', '3', '#', '0', '1'] = initialState ∧
    handleRequest initialState
        ({ n := 6, message := ['1', '2', '3', '#', '0', '1'],
           frame := { can_id := 0, can_dlc := 0, data := [9, 9, 9, 9, 9, 9, 9, 9] } } ::
          [{ n := 6, message := ['4', 'B', '7', '#', '0', '1'],
             frame := { can_id := 0, can_dlc := 0, data := [9, 9, 9, 9, 9, 9, 9, 9] } }]) =
      handleRequest initialState
        [{ n := 6, message := ['4', 'B', '7', '#', '0', '1'],
           frame := { can_id := 0, can_dlc := 0, data := [9, 9, 9, 9, 9, 9, 9, 9] } }] :=
  ⟨(ignored_message_keeps_cache initialState
      { n := 6, message := ['1', '2', '3', '#', '0', '1'],
        frame := { can_id := 0, can_dlc := 0, data := [9, 9, 9, 9, 9, 9, 9, 9] } }
      [] (Or.inr (Or.inr (by decide)))).1,
   (ignored_message_keeps_cache initialState
      { n := 6, message := ['1', '2', '3', '#', '0', '1'],
        frame := { can_id := 0, can_dlc := 0, data := [9, 9, 9, 9, 9, 9, 9, 9] } }
      [{ n := 6, message := ['4', 'B', '7', '#', '0', '1'],
         frame := { can_id := 0, can_dlc := 0, data := [9, 9, 9, 9, 9, 9, 9, 9] } }]
      (Or.inr (Or.inr (by decide)))).2.1 (by decide)⟩

theorem cacheUpdate_ids (st : ServerState) (f : can_frame)
    (h : st.steeringFrame.can_id = 0x4B7 ∧ st.propulsionFrame.can_id = 0x4B3) :
    (cacheUpdate st f).steeringFrame.can_id = 0x4B7 ∧
    (cacheUpdate st f).propulsionFrame.can_id = 0x4B3 := by
  simp only [cacheUpdate]
  split
  · rename_i h7
    exact ⟨h7, h.2⟩
  · split
    · rename_i h3
      exact ⟨h.1, h3⟩
    · exact h

theorem handleMessage_ids (st : ServerState) (frame : can_frame) (message : List Char)
    (h : st.steeringFrame.can_id = 0x4B7 ∧ st.propulsionFrame.can_id = 0x4B3) :
    (handleMessage st frame message).steeringFrame.can_id = 0x4B7 ∧
    (handleMessage st frame message).propulsionFrame.can_id = 0x4B3 := by
  simp only [handleMessage]
  split
  · exact h
  · split
    · exact cacheUpdate_ids st _ h
    · exact h

/-- The identifiers of the two cached frames never change. -/
theorem serverAfter_ids (events : List (can_frame × List Char)) :
    (serverAfter events).steeringFrame.can_id = 0x4B7 ∧
    (serverAfter events).propulsionFrame.can_id = 0x4B3 := by
  induction events using List.reverseRecOn with
  | nil => exact ⟨rfl, rfl⟩
  | append_singleton events e ih =>
    simp only [serverAfter, List.foldl_append, List.foldl_cons, List.foldl_nil]
    exact handleMessage_ids _ e.1 e.2 ih

theorem sendFrameOverSerial_eq_create (f : can_frame)
    (h : f.can_id = 0x4B7 ∨ f.can_id = 0x4B3) :
    sendFrameOverSerial f = createCANFrameString f.can_id f.data f.can_dlc ++ ['\n'] := by
  have hid : putHex 3 f.can_id = toHexUpper f.can_id := by
    rcases h with h | h <;> rw [h] <;> rfl
  simp only [sendFrameOverSerial, createCANFrameString, hid, Int.toNat_ofNat]

/-- For an identifier below `0x100` the two texts differ: `sendFrameOverSerial` sets
no field width for the identifier. Such a frame is never in the cache. -/
theorem sendFrameOverSerial_ne_create_of_short_id :
    sendFrameOverSerial { can_id := 7, can_dlc := 1, data := [255, 0, 0, 0, 0, 0, 0, 0] } =
      ['7', '#', 'F', 'F', Char.ofNat 10] ∧
    createCANFrameString 7 [255, 0, 0, 0, 0, 0, 0, 0] 1 = ['0', '0', '7', '#', 'F', 'F'] := by
  decide

/-- C9 (forwarded lines use the codec format): in every state reached from the
initial one by handling any sequence of messages, every frame the forwarder
reads on a tick carries one of the two identifiers `0x4B7`, `0x4B3`, and the line
`sendFrameOverSerial` builds for it is the text of `createCANFrameString` for
its identifier, data and length code followed by one newline. -/
theorem forwarded_lines_use_codec (events : List (can_frame × List Char)) :
    periodicSenderTick (serverAfter events) =
      (periodicSenderReads (serverAfter events)).map
        (fun f => createCANFrameString f.can_id f.data f.can_dlc ++ ['\n']) ∧
    ∀ f ∈ periodicSenderReads (serverAfter events),
      (f.can_id = 0x4B7 ∨ f.can_id = 0x4B3) ∧
      sendFrameOverSerial f = createCANFrameString f.can_id f.data f.can_dlc ++ ['\n'] := by
  obtain ⟨h7, h3⟩ := serverAfter_ids events
  have hmem : ∀ f ∈ periodicSenderReads (serverAfter events),
      f.can_id = 0x4B7 ∨ f.can_id = 0x4B3 := by
    intro f hf
    simp only [periodicSenderReads, List.mem_append] at hf
    rcases hf with hf | hf
    · split at hf
      · simp only [List.mem_singleton] at hf
        subst hf; exact Or.inl h7
      · simp at hf
    · split at hf
      · simp only [List.mem_singleton] at hf
        subst hf; exact Or.inr h3
      · simp at hf
  refine ⟨?_, fun f hf => ⟨hmem f hf, sendFrameOverSerial_eq_create f (hmem f hf)⟩⟩
  simp only [periodicSenderTick]
  exact List.map_congr_left (fun f hf => sendFrameOverSerial_eq_create f (hmem f hf))

/-- C10 (edge-triggered suppression): on a pass of the sampling loop whose
sampled pair equals the recorded pair nothing is built or sent and the recorded
pair stays; messages are handed to the socket exactly when one of the two
sampled values differs from the recorded one, and then they are the propulsion
frame followed by the steering frame, and the sampled pair becomes the recorded
pair. Without an open joystick nothing is sampled or sent. -/
theorem samplingTick_edge_triggered (powerByte steeringByte : ℚ → Nat) (st : ClientState)
    (steering power1 : ℚ) :
    ((steering = st.prevSteering ∧ power1 = st.prevPower1) →
      samplingTick powerByte steeringByte st (some (steering, power1)) = (st, [])) ∧
    ((samplingTick powerByte steeringByte st (some (steering, power1))).2 ≠ [] ↔
      (steering ≠ st.prevSteering ∨ power1 ≠ st.prevPower1)) ∧
    ((steering ≠ st.prevSteering ∨ power1 ≠ st.prevPower1) →
      samplingTick powerByte steeringByte st (some (steering, power1)) =
        ({ prevSteering := steering, prevPower1 := power1 },
          [createCANFrameString 0x4B3 [0x01, powerByte power1 % 256, 0, 0, 0, 0, 0, 0] 8,
           createCANFrameString 0x4B7 [steeringByte steering % 256, 0, 0, 0, 0, 0, 0, 0] 8])) ∧
    samplingTick powerByte steeringByte st none = (st, []) := by
  refine ⟨?_, ?_, ?_, rfl⟩
  · rintro ⟨h1, h2⟩
    simp [samplingTick, h1, h2]
  · by_cases h : steering ≠ st.prevSteering ∨ power1 ≠ st.prevPower1
    · simp only [samplingTick, if_pos h]
      simp [h]
    · simp only [samplingTick, if_neg h]
      simp [h]
  · intro h
    simp only [samplingTick, if_pos h]
    rfl

/-- C7 at a concrete sequence: two steering updates, one propulsion update and one
update for an unknown identifier; the forwarder reads the later steering frame and
the propulsion frame. -/
theorem cache_last_write_witness :
    periodicSenderReads
        ([{ can_id := 0x4B7, can_dlc := 1, data := [1, 0, 0, 0, 0, 0, 0, 0] },
          { can_id := 0x4B3, can_dlc := 2, data := [1, 50, 0, 0, 0, 0, 0, 0] },
          { can_id := 0x123, can_dlc := 0, data := [0, 0, 0, 0, 0, 0, 0, 0] },
          { can_id := 0x4B7, can_dlc := 1, data := [2, 0, 0, 0, 0, 0, 0, 0] }].foldl
          cacheUpdate initialState) =
      [{ can_id := 0x4B7, can_dlc := 1, data := [2, 0, 0, 0, 0, 0, 0, 0] },
       { can_id := 0x4B3, can_dlc := 2, data := [1, 50, 0, 0, 0, 0, 0, 0] }] :=
  (cache_last_write _).1.trans (by decide)

/-- C9 at a concrete run: after one steering message the tick writes the line
`4B7#FF00` followed by a newline. -/
theorem forwarded_lines_use_codec_witness :
    periodicSenderTick (serverAfter
        [({ can_id := 0, can_dlc := 0, data := [9, 9, 9, 9, 9, 9, 9, 9] },
          ['4', 'B', '7', '#', 'F', 'F', '0', '0'])]) =
      [['4', 'B', '7', '#', 'F', 'F', '0', '0', Char.ofNat 10]] :=
  (forwarded_lines_use_codec _).1.trans (by decide)

/-- C10 at concrete samples: from the initial recorded pair a first sample is
sent, and the same sample again is not. -/
theorem samplingTick_edge_triggered_witness :
    samplingTick (fun _ => 50) (fun _ => 127) initialClientState (some (0, 50)) =
      ({ prevSteering := 0, prevPower1 := 50 },
        [createCANFrameString 0x4B3 [0x01, 50, 0, 0, 0, 0, 0, 0] 8,
         createCANFrameString 0x4B7 [127, 0, 0, 0, 0, 0, 0, 0] 8]) ∧
    samplingTick (fun _ => 50) (fun _ => 127) { prevSteering := 0, prevPower1 := 50 }
        (some (0, 50)) = ({ prevSteering := 0, prevPower1 := 50 }, []) :=
  ⟨(samplingTick_edge_triggered (fun _ => 50) (fun _ => 127) initialClientState 0 50).2.2.1
      (by decide),
    (samplingTick_edge_triggered (fun _ => 50) (fun _ => 127)
      { prevSteering := 0, prevPower1 := 50 } 0 50).1 (by decide)⟩

end CANRelay
